import Mathlib

/-!
# dxvk-remix: `util_math.h` helpers and the NEE cache

A shallow embedding of `src/util/util_math.h` (`clamp`, `fclamp`,
`popcnt_uint8`, `align`, `align_safe`, `alignDown`, `divCeil`) and of the
option table declared by `NeeCachePass` in
`src/dxvk/rtx_render/rtx_nee_cache.h`, together with the properties the
specification states about them. The candidate set and the sampler of the
cache, which the two source files do not contain, follow the specification.
-/

namespace dxvk

/-! ## The C++ `float` type (IEEE-754 binary32) -/

/-- A `float`, given by the three bit fields of its binary32 encoding:
sign (1 bit), biased exponent (8 bits) and mantissa (23 bits). -/
structure F32 where
  sign : Bool
  exp : Fin 256
  man : Fin 8388608
deriving DecidableEq

namespace F32

/-- Exponent field all ones and a non-zero mantissa: not a number. -/
def isNaN (x : F32) : Bool := x.exp.val == 255 && x.man.val != 0

/-- Sign-magnitude reading of the encoding. On the values that are not NaN
it is strictly monotone in the real value that is encoded
(`F32.key_lt_iff_toRat_lt`), with `-0.0` and `+0.0` both sent to `0` and the
infinities to the two extremes. -/
def key (x : F32) : Int :=
  if x.sign then -((x.exp.val * 8388608 + x.man.val : Nat) : Int)
  else ((x.exp.val * 8388608 + x.man.val : Nat) : Int)

/-- The C++ `x < y` on `float`: false as soon as an operand is NaN. -/
def lt (x y : F32) : Bool := !x.isNaN && !y.isNaN && decide (x.key < y.key)

/-- The C++ `x <= y` on `float`: false as soon as an operand is NaN. -/
def le (x y : F32) : Bool := !x.isNaN && !y.isNaN && decide (x.key ≤ y.key)

instance : LT F32 := ⟨fun x y => lt x y = true⟩

instance : LE F32 := ⟨fun x y => le x y = true⟩

instance (x y : F32) : Decidable (x < y) := inferInstanceAs (Decidable (lt x y = true))

instance (x y : F32) : Decidable (x ≤ y) := inferInstanceAs (Decidable (le x y = true))

/-- The value of a finite `float` as a rational number (subnormal when the
exponent field is 0). On the exponent field 255 the same formula gives
`2^128`, a magnitude beyond every finite `float`, for an infinity. -/
def toRat (x : F32) : ℚ :=
  (if x.sign then -1 else 1) *
    (if x.exp.val = 0 then (x.man.val : ℚ) / 2 ^ 149
     else ((8388608 + x.man.val : Nat) : ℚ) * 2 ^ x.exp.val / 2 ^ 150)

/-- The magnitude part of the encoding: exponent and mantissa fields read as
one 31-bit number. -/
def mag (x : F32) : Nat := x.exp.val * 8388608 + x.man.val

/-- The magnitude of the value, scaled by `2^150` so that it is a natural
number. -/
def scaled (x : F32) : Nat :=
  if x.exp.val = 0 then x.man.val * 2 else (8388608 + x.man.val) * 2 ^ x.exp.val

/-- The literal `0.0f`. -/
def zero : F32 := ⟨false, 0, 0⟩

/-- The literal `-0.0f`. -/
def negZero : F32 := ⟨true, 0, 0⟩

/-- The value `+INFINITY`. -/
def posInf : F32 := ⟨false, 255, 0⟩

/-- The value `-INFINITY`. -/
def negInf : F32 := ⟨true, 255, 0⟩

/-- The quiet NaN `0x7FC00000`. -/
def qNaN : F32 := ⟨false, 255, 4194304⟩

/-- The literal `3000.0f` (`0x453B8000`), the default `rtx.neeCache.range`. -/
def pos3000 : F32 := ⟨false, 138, 3899392⟩

/-- The literal `-3000.0f` (`0xC53B8000`). -/
def neg3000 : F32 := ⟨true, 138, 3899392⟩

/-- The literal `1.0f` (`0x3F800000`). -/
def one : F32 := ⟨false, 127, 0⟩

/-- A NaN whose quiet bit (mantissa bit 22) is clear: a signaling NaN. -/
def isSignaling (x : F32) : Bool := x.isNaN && decide (x.man.val < 4194304)

/-- The quiet NaN that an arithmetic instruction makes of a NaN operand: the
quiet bit is set, sign and payload are kept. -/
def quiet (x : F32) : F32 :=
  if h : x.man.val < 4194304 then ⟨x.sign, x.exp, ⟨x.man.val + 4194304, by omega⟩⟩
  else x

/-- The C++ `x == y` on `float`: false as soon as an operand is NaN, true on
`-0.0` against `+0.0`. -/
def feq (x y : F32) : Bool := !x.isNaN && !y.isNaN && decide (x.key = y.key)

/-- `std::fmax` of `<cmath>` on `float`, as the C library computes it on
x86-64 (`fmaxf`):
* on two numbers, `x > y ? x : y` (the `maxss` instruction), so the second
  operand is returned when the two compare equal, `-0.0` against `+0.0`
  included;
* a quiet NaN operand is treated as missing data: the other operand, a number,
  is returned;
* with a signaling NaN operand, or two NaN operands, the sum `x + y` is
  returned: a quiet NaN, made of the first NaN operand. -/
def fmax (x y : F32) : F32 :=
  if x.isNaN || y.isNaN then
    if x.isNaN && !y.isNaN && !x.isSignaling then y
    else if y.isNaN && !x.isNaN && !y.isSignaling then x
    else quiet (if x.isNaN then x else y)
  else if lt y x then x else y

/-- `std::fmin` of `<cmath>` on `float`, as the C library computes it on
x86-64 (`fminf`):
* on two numbers, `x < y ? x : y` (the `minss` instruction), so the second
  operand is returned when the two compare equal, `+0.0` against `-0.0`
  included;
* a quiet NaN operand is treated as missing data: the other operand, a number,
  is returned;
* with a signaling NaN operand, or two NaN operands, the sum `x + y` is
  returned: a quiet NaN, made of the first NaN operand. -/
def fmin (x y : F32) : F32 :=
  if x.isNaN || y.isNaN then
    if x.isNaN && !y.isNaN && !x.isSignaling then y
    else if y.isNaN && !x.isNaN && !y.isSignaling then x
    else quiet (if x.isNaN then x else y)
  else if lt x y then x else y

end F32

/-! ## `util_math.h` -/

/-- `template<typename T> constexpr T clamp(T n, T lo, T hi)`:
`if (n < lo) return lo; if (n > hi) return hi; return n;` -/
def clamp {T : Type} [LT T] [DecidableRel (fun a b : T => a < b)] (n lo hi : T) : T :=
  if n < lo then lo
  else if n > hi then hi
  else n

/-- `inline float fclamp(float value, float min, float max)`:
`return std::fmin(std::fmax(value, min), max);` -/
def fclamp (value min max : F32) : F32 :=
  F32.fmin (F32.fmax value min) max

/-- `constexpr uint8_t popcnt_uint8(uint8_t i)`. The operands of each
expression are promoted to `int`; storing into the `uint8_t` variable `i` and
returning a `uint8_t` reduce the value modulo `2^8`.
```
i = i - ((i >> 1) & 0x55);
i = (i & 0x33) + ((i >> 2) & 0x33);
return ((i + (i >> 4)) & 0x0F);
``` -/
def popcnt_uint8 (i : Nat) : Nat :=
  let i1 : Nat := (((i : Int) - (((i >>> 1) &&& 0x55 : Nat) : Int)) % 256).toNat
  let i2 : Nat := ((i1 &&& 0x33) + ((i1 >>> 2) &&& 0x33)) % 256
  ((i2 + (i2 >>> 4)) &&& 0x0F) % 256

/-- The number of bits set to 1 among the eight binary digits of `i`. -/
def setBits8 (i : Nat) : Nat :=
  ((List.range 8).filter (fun k => i.testBit k)).length

/-! ### Unsigned arithmetic on `w` bits

`align`, `align_safe`, `alignDown` and `divCeil` are templates over an integer
type `T`. They are embedded for an unsigned type of `w` bits, whose values are
the naturals below `2^w` and whose operations reduce their result modulo
`2^w`. For a type narrower than `int` the operands are promoted to `int` and
only the returned value is reduced; on the inputs of the properties below,
where no intermediate result leaves the range of the type, that gives the same
value. -/

/-- The value an integer result takes in an unsigned type of `w` bits. -/
def wrapU (w : Nat) (x : Int) : Nat := (x % 2 ^ w).toNat

/-- The C++ `a + b` on an unsigned type of `w` bits. -/
def uadd (w a b : Nat) : Nat := wrapU w ((a : Int) + b)

/-- The C++ `a - b` on an unsigned type of `w` bits. -/
def usub (w a b : Nat) : Nat := wrapU w ((a : Int) - b)

/-- The C++ `a * b` on an unsigned type of `w` bits. -/
def umul (w a b : Nat) : Nat := wrapU w ((a : Int) * b)

/-- The C++ `~a` on an unsigned type of `w` bits: every bit flipped. -/
def unot (w a : Nat) : Nat := 2 ^ w - 1 - a % 2 ^ w

/-- `template<typename T, typename U = T> constexpr T align(T what, U to)`:
`return (what + to - 1) & ~(to - 1);` -/
def align (w what to_ : Nat) : Nat :=
  usub w (uadd w what to_) 1 &&& unot w (usub w to_ 1)

/-- `template<typename T, typename U = T>
constexpr T align_safe(T what, U to, T maxValue)`:
`return (what + std::min(maxValue - what, to - 1)) & ~(to - 1);` -/
def align_safe (w what to_ maxValue : Nat) : Nat :=
  uadd w what (min (usub w maxValue what) (usub w to_ 1)) &&& unot w (usub w to_ 1)

/-- `template<typename T, typename U = T> constexpr T alignDown(T what, U to)`:
`return (what / to) * to;`. A division by zero has no result. -/
def alignDown (w what to_ : Nat) : Option Nat :=
  if to_ = 0 then none else some (umul w (what / to_) to_)

/-- `template<typename T> inline T divCeil(T dividend, T divisor)`:
`return (dividend + divisor - 1) / divisor;`. A division by zero has no
result. -/
def divCeil (w dividend divisor : Nat) : Option Nat :=
  if divisor = 0 then none else some (usub w (uadd w dividend divisor) 1 / divisor)

/-- `r` is the least multiple of `t` that is `>= x`. -/
def IsLeastMultipleGE (t x r : Nat) : Prop :=
  t ∣ r ∧ x ≤ r ∧ ∀ m, t ∣ m → x ≤ m → r ≤ m

/-- `r` is the greatest multiple of `t` that is `<= x`. -/
def IsGreatestMultipleLE (t x r : Nat) : Prop :=
  t ∣ r ∧ r ≤ x ∧ ∀ m, t ∣ m → m ≤ x → m ≤ r

/-! ## `rtx_nee_cache.h`: the options declared by `NeeCachePass` -/

/-- The value type of an option: the second argument of `RTX_OPTION`. -/
inductive OptionType where
  | bool
  | float
deriving DecidableEq

/-- The default value of an option, as the literal written in the source:
the fourth argument of `RTX_OPTION`. -/
inductive OptionDefault where
  | boolLit (b : Bool)
  | floatLit (q : ℚ)
deriving DecidableEq

/-- One `RTX_OPTION(category, type, name, default, description)` line, without
its description text; `readWrite` tells the `RW_RTX_OPTION` form. -/
structure RtxOption where
  category : String
  type : OptionType
  name : String
  default : OptionDefault
  readWrite : Bool
deriving DecidableEq

namespace NeeCachePass

/-- The option lines of `class NeeCachePass`, in source order. -/
def options : List RtxOption :=
  [ ⟨"rtx.neeCache", .bool, "enable", .boolLit true, true⟩,
    ⟨"rtx.neeCache", .bool, "enableImportanceSampling", .boolLit true, false⟩,
    ⟨"rtx.neeCache", .bool, "enableMIS", .boolLit true, false⟩,
    ⟨"rtx.neeCache", .bool, "enableJittering", .boolLit true, false⟩,
    ⟨"rtx.neeCache", .bool, "enableInFirstBounce", .boolLit true, false⟩,
    ⟨"rtx.neeCache", .bool, "enableInSecondAndMoreBounces", .boolLit true, false⟩,
    ⟨"rtx.neeCache", .bool, "enableRandomReplacement", .boolLit false, false⟩,
    ⟨"rtx.neeCache", .float, "range", .floatLit 3000, false⟩,
    ⟨"rtx.neeCache", .float, "emissiveTextureSampleFootprintSize", .floatLit 1.0, false⟩,
    ⟨"rtx.neeCache", .float, "ageCullingSpeed", .floatLit 0.02, false⟩ ]

/-- The default of the option called `name`, when one is declared. -/
def defaultOf (name : String) : Option OptionDefault :=
  (options.find? (fun o => o.name == name)).map (fun o => o.default)

/-- The default of a `bool` option. -/
def boolDefault (name : String) : Bool :=
  match defaultOf name with
  | some (.boolLit b) => b
  | _ => false

/-- The default of a `float` option. -/
def floatDefault (name : String) : ℚ :=
  match defaultOf name with
  | some (.floatLit q) => q
  | _ => 0

end NeeCachePass

/-- A snapshot of the ten option values, one field per accessor that
`RTX_OPTION` declares. -/
structure NeeCacheConfig where
  enable : Bool
  enableImportanceSampling : Bool
  enableMIS : Bool
  enableJittering : Bool
  enableInFirstBounce : Bool
  enableInSecondAndMoreBounces : Bool
  enableRandomReplacement : Bool
  range : ℚ
  emissiveTextureSampleFootprintSize : ℚ
  ageCullingSpeed : ℚ

/-- The configuration in which every option has its declared default. -/
def NeeCachePass.defaultConfig : NeeCacheConfig where
  enable := boolDefault "enable"
  enableImportanceSampling := boolDefault "enableImportanceSampling"
  enableMIS := boolDefault "enableMIS"
  enableJittering := boolDefault "enableJittering"
  enableInFirstBounce := boolDefault "enableInFirstBounce"
  enableInSecondAndMoreBounces := boolDefault "enableInSecondAndMoreBounces"
  enableRandomReplacement := boolDefault "enableRandomReplacement"
  range := floatDefault "range"
  emissiveTextureSampleFootprintSize := floatDefault "emissiveTextureSampleFootprintSize"
  ageCullingSpeed := floatDefault "ageCullingSpeed"

/-- Modelled from the spec: the configuration-load check of section 7, which
no source file implements. A non-positive `range` or `ageCullingSpeed` is a
configuration violation and is rejected with a descriptive failure; every
other configuration is accepted. -/
def validateConfig (c : NeeCacheConfig) : Except String Unit :=
  if c.range ≤ 0 then .error "rtx.neeCache.range must be positive"
  else if c.ageCullingSpeed ≤ 0 then .error "rtx.neeCache.ageCullingSpeed must be positive"
  else .ok ()

/-- Whether `validateConfig` accepts the configuration. -/
def acceptsConfig (c : NeeCacheConfig) : Bool :=
  match validateConfig c with
  | .ok _ => true
  | .error _ => false

/-! ## The candidate set and the sampler of the NEE cache

`rtx_nee_cache.h` only declares the pass and its options; the admission and
sampling code is not among the sources. The definitions of this section follow
sections 3, 4.2 and 4.5 of the specification. Scores are exact rationals. -/

/-- Modelled from the spec: the Candidate record of section 3, which no source
file declares: a triangle reference, its score and its age in frames. -/
structure Candidate where
  triangleId : Nat
  score : ℚ
  age : Nat
deriving DecidableEq

/-- Modelled from the spec: the CandidateSet of section 3, which no source
file declares: the candidates of one cell, in slot order, and the capacity
configured for the cell. -/
structure CandidateSet where
  capacity : Nat
  entries : List Candidate
deriving DecidableEq

/-- Modelled from the spec: the SampleResult of section 3, which no source
file declares. -/
structure SampleResult where
  triangleId : Nat
  selectionProbability : ℚ
deriving DecidableEq

namespace CandidateSet

/-- Modelled from the spec: membership test of `offer` (section 4.2, "if
`triangleId` already present"). -/
def contains (s : CandidateSet) (triangleId : Nat) : Bool :=
  s.entries.any (fun c => c.triangleId == triangleId)

/-- Modelled from the spec: the weighted reinforcement of section 4.2, as the
exponential moving average the section names; `blend` is the weight of the
proposed score, which section 9 leaves as a configurable constant. -/
def reinforce (blend existing proposed : ℚ) : ℚ :=
  (1 - blend) * existing + blend * proposed

/-- Modelled from the spec: "find the current lowest-scoring candidate"
(section 4.2): slot index and score of the first candidate whose score is the
lowest; nothing for a set without candidates. -/
def lowest : List Candidate → Option (Nat × ℚ)
  | [] => none
  | c :: cs =>
    match lowest cs with
    | none => some (0, c.score)
    | some (j, m) => if c.score ≤ m then some (0, c.score) else some (j + 1, m)

/-- Modelled from the spec: `offer(triangleId, proposedScore) -> bool` of
section 4.2, which no source file implements. `rnd` is the draw of the
pseudo-random source used by the random policy (section 9).
* present: blend the scores and reset the age to 0; admitted;
* else size < capacity: insert with age 0; admitted;
* else random policy: a uniformly drawn candidate is replaced by the new one;
* else greedy policy: the lowest-scoring candidate is replaced by the new one
  if `proposedScore` exceeds its score, otherwise the offer is rejected.
A full set without candidates (capacity 0) has nothing to evict and rejects. -/
def offer (enableRandomReplacement : Bool) (blend : ℚ) (s : CandidateSet)
    (triangleId : Nat) (proposedScore : ℚ) (rnd : Nat) : CandidateSet × Bool :=
  if s.contains triangleId then
    (⟨s.capacity, s.entries.map (fun c =>
        if c.triangleId = triangleId then
          ⟨c.triangleId, reinforce blend c.score proposedScore, 0⟩
        else c)⟩, true)
  else if s.entries.length < s.capacity then
    (⟨s.capacity, s.entries ++ [⟨triangleId, proposedScore, 0⟩]⟩, true)
  else if enableRandomReplacement then
    if s.entries.length = 0 then (s, false)
    else
      (⟨s.capacity,
        s.entries.set (rnd % s.entries.length) ⟨triangleId, proposedScore, 0⟩⟩, true)
  else
    match lowest s.entries with
    | none => (s, false)
    | some (i, m) =>
      if proposedScore > m then
        (⟨s.capacity, s.entries.set i ⟨triangleId, proposedScore, 0⟩⟩, true)
      else (s, false)

end CandidateSet

namespace Sampler

/-- Modelled from the spec: "the sum of all scores in the set" (section 4.5). -/
def totalScore (l : List Candidate) : ℚ := (l.map (fun c => c.score)).sum

/-- Modelled from the spec: the score-proportional draw of section 4.5, which
no source file implements. `t` is the random point in `[0, sum of scores)`; the
candidate whose score interval holds `t` is drawn, and the last candidate
stands in when `t` lies beyond every interval. -/
def pickProportional : List Candidate → ℚ → Option Candidate
  | [], _ => none
  | [c], _ => some c
  | c :: d :: cs, t =>
    if t < c.score then some c else pickProportional (d :: cs) (t - c.score)

/-- Modelled from the spec: the uniform draw of section 4.5, which no source
file implements: slot `floor(u * size)`, kept below `size`. -/
def pickUniform (l : List Candidate) (u : ℚ) : Option Candidate :=
  l[min (⌊u * l.length⌋.toNat) (l.length - 1)]?

/-- Modelled from the spec: the probability `sample` reports for a candidate
of the set (section 4.5): its normalized score under importance sampling when
the score sum is positive, and `1/size` otherwise. -/
def selectionProbability (l : List Candidate) (enableImportanceSampling : Bool)
    (c : Candidate) : ℚ :=
  if enableImportanceSampling ∧ 0 < totalScore l then c.score / totalScore l
  else 1 / l.length

/-- Modelled from the spec: `sample(cellCandidates, enableImportanceSampling)
-> SampleResult | Empty` of section 4.5, which no source file implements. `u`
is the draw of the pseudo-random source, a number in `[0, 1)`; `none` is
Empty. -/
def sample (l : List Candidate) (enableImportanceSampling : Bool) (u : ℚ) :
    Option SampleResult :=
  if l.isEmpty then none
  else
    let drawn :=
      if enableImportanceSampling ∧ 0 < totalScore l then
        pickProportional l (u * totalScore l)
      else pickUniform l u
    drawn.map (fun c => ⟨c.triangleId, selectionProbability l enableImportanceSampling c⟩)

end Sampler

/-! ## Properties -/

theorem F32.lt_iff (x y : F32) :
    x < y ↔ x.isNaN = false ∧ y.isNaN = false ∧ x.key < y.key := by
  show F32.lt x y = true ↔ _
  simp [F32.lt, and_assoc]

theorem F32.le_iff (x y : F32) :
    x ≤ y ↔ x.isNaN = false ∧ y.isNaN = false ∧ x.key ≤ y.key := by
  show F32.le x y = true ↔ _
  simp [F32.le, and_assoc]

theorem F32.toRat_eq (x : F32) :
    x.toRat = (if x.sign then -1 else 1) * ((x.scaled : ℚ) / 2 ^ 150) := by
  unfold F32.toRat F32.scaled
  congr 1
  split
  · push_cast
    ring
  · push_cast
    ring

theorem F32.key_eq (x : F32) : x.key = (if x.sign then -1 else 1) * (x.mag : Int) := by
  unfold F32.key F32.mag
  split <;> simp

theorem F32.scaled_lt_of_mag_lt (x y : F32) (h : x.mag < y.mag) : x.scaled < y.scaled := by
  unfold F32.mag at h
  unfold F32.scaled
  have hx := x.man.isLt
  have hy := y.man.isLt
  rcases Nat.lt_trichotomy x.exp.val y.exp.val with he | he | he
  · have hy0 : y.exp.val ≠ 0 := by omega
    have hpow : 2 ^ (x.exp.val + 1) ≤ 2 ^ y.exp.val := Nat.pow_le_pow_right (by norm_num) he
    rw [pow_succ] at hpow
    simp only [hy0, if_false]
    have h2 : 8388608 * 2 ^ y.exp.val ≤ (8388608 + y.man.val) * 2 ^ y.exp.val :=
      Nat.mul_le_mul_right _ (by omega)
    split
    · rename_i hx0
      rw [hx0] at hpow
      simp at hpow
      omega
    · have hpos : 0 < 2 ^ x.exp.val := Nat.two_pow_pos _
      have h3 : (8388608 + x.man.val) * 2 ^ x.exp.val < 16777216 * 2 ^ x.exp.val :=
        Nat.mul_lt_mul_of_pos_right (by omega) hpos
      nlinarith
  · rw [he] at h ⊢
    have hm : x.man.val < y.man.val := by omega
    split
    · omega
    · exact Nat.mul_lt_mul_of_pos_right (by omega) (Nat.two_pow_pos _)
  · exfalso
    have : (y.exp.val + 1) * 8388608 ≤ x.exp.val * 8388608 := Nat.mul_le_mul_right _ he
    omega

theorem F32.mag_lt_iff_scaled_lt (x y : F32) : x.mag < y.mag ↔ x.scaled < y.scaled := by
  constructor
  · exact F32.scaled_lt_of_mag_lt x y
  · intro h
    by_contra hc
    rcases Nat.lt_or_ge y.mag x.mag with h1 | h1
    · have := F32.scaled_lt_of_mag_lt y x h1
      omega
    · have heq : x.mag = y.mag := by omega
      have hx := x.man.isLt
      have hy := y.man.isLt
      unfold F32.mag at heq
      have he : x.exp.val = y.exp.val := by omega
      have hm : x.man.val = y.man.val := by omega
      unfold F32.scaled at h
      rw [he, hm] at h
      omega

/-- The order of the sign-magnitude keys is the order of the encoded values:
the comparison used by `F32.lt` is the numeric comparison of the two
`float`s. -/
theorem F32.key_lt_iff_toRat_lt (x y : F32) : x.key < y.key ↔ x.toRat < y.toRat := by
  rw [F32.toRat_eq, F32.toRat_eq, F32.key_eq, F32.key_eq]
  have hxy := F32.mag_lt_iff_scaled_lt x y
  have hyx := F32.mag_lt_iff_scaled_lt y x
  have h0x : x.mag = 0 ↔ x.scaled = 0 := by
    unfold F32.mag F32.scaled
    have : 0 < 2 ^ x.exp.val := Nat.two_pow_pos _
    split
    · omega
    · constructor
      · omega
      · intro h
        have := Nat.mul_eq_zero.1 h
        omega
  have h0y : y.mag = 0 ↔ y.scaled = 0 := by
    unfold F32.mag F32.scaled
    have : 0 < 2 ^ y.exp.val := Nat.two_pow_pos _
    split
    · omega
    · constructor
      · omega
      · intro h
        have := Nat.mul_eq_zero.1 h
        omega
  have hp : (0 : ℚ) < 2 ^ 150 := pow_pos (by norm_num) _
  have hsx : (0 : ℚ) ≤ x.scaled := Nat.cast_nonneg _
  have hsy : (0 : ℚ) ≤ y.scaled := Nat.cast_nonneg _
  have hdiv : ∀ a b : ℚ, a / 2 ^ 150 < b / 2 ^ 150 ↔ a < b := fun a b =>
    div_lt_div_iff_of_pos_right hp
  cases x.sign <;> cases y.sign <;> simp only [Bool.false_eq_true, if_false, if_true, one_mul,
    neg_mul, neg_lt_neg_iff, hdiv, Nat.cast_lt]
  · exact hxy
  · constructor
    · intro h
      omega
    · intro h
      exfalso
      have h1 : (0 : ℚ) ≤ (x.scaled : ℚ) / 2 ^ 150 := div_nonneg hsx (le_of_lt hp)
      have h2 : (0 : ℚ) ≤ (y.scaled : ℚ) / 2 ^ 150 := div_nonneg hsy (le_of_lt hp)
      linarith
  · constructor
    · intro h
      have hne : ¬ (x.mag = 0 ∧ y.mag = 0) := by omega
      have hne2 : ¬ (x.scaled = 0 ∧ y.scaled = 0) := by
        rw [← h0x, ← h0y]
        exact hne
      have h3 : 0 < x.scaled + y.scaled := by omega
      have h4 : (0 : ℚ) < (x.scaled : ℚ) + y.scaled := by exact_mod_cast h3
      have h5 : (0 : ℚ) < ((x.scaled : ℚ) + y.scaled) / 2 ^ 150 := div_pos h4 hp
      rw [add_div] at h5
      linarith
    · intro h
      have h5 : (0 : ℚ) < ((x.scaled : ℚ) + y.scaled) / 2 ^ 150 := by
        rw [add_div]
        linarith
      have h4 : (0 : ℚ) < (x.scaled : ℚ) + y.scaled := by
        by_contra hc
        have : (x.scaled : ℚ) + y.scaled = 0 := by linarith
        rw [this] at h5
        simp at h5
      have h3 : 0 < x.scaled + y.scaled := by exact_mod_cast h4
      have hne : ¬ (x.mag = 0 ∧ y.mag = 0) := by
        rw [h0x, h0y]
        omega
      omega
  · exact hyx

theorem F32.toRat_literals :
    F32.zero.toRat = 0 ∧ F32.negZero.toRat = 0 ∧ F32.one.toRat = 1 ∧
    F32.pos3000.toRat = 3000 ∧ F32.neg3000.toRat = -3000 := by
  have h127 : ((127 : Fin 256) : Nat) = 127 := rfl
  have h138 : ((138 : Fin 256) : Nat) = 138 := rfl
  have hman : ((3899392 : Fin 8388608) : Nat) = 3899392 := rfl
  refine ⟨?_, ?_, ?_, ?_, ?_⟩ <;>
    norm_num [F32.toRat, F32.zero, F32.negZero, F32.one, F32.pos3000, F32.neg3000,
      h127, h138, hman]

theorem F32.isNaN_eq_false_iff (x : F32) :
    x.isNaN = false ↔ (x.exp.val = 255 → x.man.val = 0) := by
  simp [F32.isNaN]

theorem F32.key_le_posInf (x : F32) (hx : x.isNaN = false) : x.key ≤ 2139095040 := by
  rw [F32.isNaN_eq_false_iff] at hx
  have h1 := x.exp.isLt
  have h2 := x.man.isLt
  unfold F32.key
  split <;> omega

theorem F32.negInf_le_key (x : F32) (hx : x.isNaN = false) : -2139095040 ≤ x.key := by
  rw [F32.isNaN_eq_false_iff] at hx
  have h1 := x.exp.isLt
  have h2 := x.man.isLt
  unfold F32.key
  split <;> omega

theorem F32.eq_posInf_of_key (x : F32) (hx : 2139095040 ≤ x.key) (hn : x.isNaN = false) :
    x = F32.posInf := by
  rw [F32.isNaN_eq_false_iff] at hn
  obtain ⟨s, ⟨e, he⟩, ⟨m, hm⟩⟩ := x
  unfold F32.key at hx
  simp only at hn hx
  have hs : s = false := by
    cases s
    · rfl
    · simp only [if_true] at hx
      omega
  subst hs
  simp only [Bool.false_eq_true, if_false] at hx
  have he2 : e = 255 := by omega
  have hm2 : m = 0 := hn he2
  subst he2 hm2
  rfl

theorem F32.eq_negInf_of_key (x : F32) (hx : x.key ≤ -2139095040) (hn : x.isNaN = false) :
    x = F32.negInf := by
  rw [F32.isNaN_eq_false_iff] at hn
  obtain ⟨s, ⟨e, he⟩, ⟨m, hm⟩⟩ := x
  unfold F32.key at hx
  simp only at hn hx
  have hs : s = true := by
    cases s
    · simp only [Bool.false_eq_true, if_false] at hx
      omega
    · rfl
  subst hs
  simp only [if_true] at hx
  have he2 : e = 255 := by omega
  have hm2 : m = 0 := hn he2
  subst he2 hm2
  rfl

theorem F32.key_posInf : F32.posInf.key = 2139095040 := by decide

theorem F32.key_negInf : F32.negInf.key = -2139095040 := by decide

theorem clamp_int_contract (n lo hi : Int) (h : lo ≤ hi) :
    (lo ≤ clamp n lo hi ∧ clamp n lo hi ≤ hi) ∧
    (clamp n lo hi = n ↔ lo ≤ n ∧ n ≤ hi) ∧
    (hi < n → clamp n lo hi = clamp hi lo hi ∧ clamp hi lo hi = hi) ∧
    (n < lo → clamp n lo hi = clamp lo lo hi ∧ clamp lo lo hi = lo) := by
  unfold clamp
  refine ⟨?_, ?_, ?_, ?_⟩
  · split_ifs <;> omega
  · split_ifs <;> omega
  · intro hn
    split_ifs <;> omega
  · intro hn
    split_ifs <;> omega

theorem clamp_f32_contract (n lo hi : F32) (h : lo ≤ hi) (hn : n.isNaN = false) :
    (lo ≤ clamp n lo hi ∧ clamp n lo hi ≤ hi) ∧
    (clamp n lo hi = n ↔ lo ≤ n ∧ n ≤ hi) ∧
    (hi < n → clamp n lo hi = clamp hi lo hi ∧ clamp hi lo hi = hi) ∧
    (n < lo → clamp n lo hi = clamp lo lo hi ∧ clamp lo lo hi = lo) := by
  obtain ⟨hlo, hhi, hk⟩ := (F32.le_iff lo hi).1 h
  have hself : ∀ x : F32, ¬ (x < x) := fun x hx => by
    have := ((F32.lt_iff x x).1 hx).2.2
    omega
  unfold clamp
  refine ⟨?_, ?_, ?_, ?_⟩
  · split_ifs with h1 h2
    · exact ⟨(F32.le_iff _ _).2 ⟨hlo, hlo, le_refl _⟩, h⟩
    · exact ⟨h, (F32.le_iff _ _).2 ⟨hhi, hhi, le_refl _⟩⟩
    · rw [gt_iff_lt, F32.lt_iff] at h2
      rw [F32.lt_iff] at h1
      simp only [hn, hlo, hhi, true_and, not_lt] at h1 h2
      exact ⟨(F32.le_iff _ _).2 ⟨hlo, hn, h1⟩, (F32.le_iff _ _).2 ⟨hn, hhi, h2⟩⟩
  · split_ifs with h1 h2
    · constructor
      · intro he
        rw [he] at h1
        exact absurd h1 (hself n)
      · intro hc
        have := ((F32.le_iff _ _).1 hc.1).2.2
        have := ((F32.lt_iff _ _).1 h1).2.2
        omega
    · constructor
      · intro he
        rw [he] at h2
        exact absurd h2 (hself n)
      · intro hc
        have := ((F32.le_iff _ _).1 hc.2).2.2
        have := ((F32.lt_iff _ _).1 h2).2.2
        omega
    · rw [gt_iff_lt, F32.lt_iff] at h2
      rw [F32.lt_iff] at h1
      simp only [hn, hlo, hhi, true_and, not_lt] at h1 h2
      simp only [true_iff]
      exact ⟨(F32.le_iff _ _).2 ⟨hlo, hn, h1⟩, (F32.le_iff _ _).2 ⟨hn, hhi, h2⟩⟩
  · intro hgt
    have hk2 := ((F32.lt_iff _ _).1 hgt).2.2
    have h1 : ¬ (n < lo) := fun hc => by
      have := ((F32.lt_iff _ _).1 hc).2.2
      omega
    have h3 : ¬ (hi < lo) := fun hc => by
      have := ((F32.lt_iff _ _).1 hc).2.2
      omega
    simp [h1, hgt, h3, hself hi]
  · intro hlt
    have h3 : ¬ (lo > hi) := fun hc => by
      have := ((F32.lt_iff _ _).1 hc).2.2
      omega
    simp [hlt, h3, hself lo]

theorem F32.feq_iff (x y : F32) :
    F32.feq x y = true ↔ x.isNaN = false ∧ y.isNaN = false ∧ x.key = y.key := by
  simp [F32.feq, and_assoc]

theorem F32.isSignaling_isNaN (x : F32) (h : x.isSignaling = true) : x.isNaN = true := by
  simp only [F32.isSignaling, Bool.and_eq_true] at h
  exact h.1

theorem F32.quiet_isNaN (x : F32) (h : x.isNaN = true) :
    (F32.quiet x).isNaN = true ∧ (F32.quiet x).isSignaling = false := by
  unfold F32.quiet
  by_cases hm : x.man.val < 4194304
  · simp only [hm, dif_pos]
    simp only [F32.isNaN, Bool.and_eq_true, beq_iff_eq, bne_iff_ne, ne_eq] at h
    simp [F32.isNaN, F32.isSignaling, h.1]
  · simp only [hm, dif_neg, not_false_eq_true]
    refine ⟨h, ?_⟩
    simp [F32.isSignaling, hm]

theorem F32.fmax_of_num (x y : F32) (hx : x.isNaN = false) (hy : y.isNaN = false) :
    F32.fmax x y = if y.key < x.key then x else y := by
  simp [F32.fmax, F32.lt, hx, hy]

theorem F32.fmin_of_num (x y : F32) (hx : x.isNaN = false) (hy : y.isNaN = false) :
    F32.fmin x y = if x.key < y.key then x else y := by
  simp [F32.fmin, F32.lt, hx, hy]

theorem F32.fmax_quiet_left (x y : F32) (hx : x.isNaN = true) (hq : x.isSignaling = false)
    (hy : y.isNaN = false) : F32.fmax x y = y := by
  simp [F32.fmax, hx, hy, hq]

theorem F32.fmin_quiet_left (x y : F32) (hx : x.isNaN = true) (hq : x.isSignaling = false)
    (hy : y.isNaN = false) : F32.fmin x y = y := by
  simp [F32.fmin, hx, hy, hq]

theorem F32.fmax_signaling_left (x y : F32) (hs : x.isSignaling = true)
    (hy : y.isNaN = false) : F32.fmax x y = F32.quiet x := by
  have hx := F32.isSignaling_isNaN x hs
  simp [F32.fmax, hx, hy, hs]

theorem F32.eq_of_key_eq (x y : F32) (h : x.key = y.key) (h0 : x.key ≠ 0) : x = y := by
  obtain ⟨s1, ⟨e1, he1⟩, ⟨m1, hm1⟩⟩ := x
  obtain ⟨s2, ⟨e2, he2⟩, ⟨m2, hm2⟩⟩ := y
  unfold F32.key at h h0
  simp only at h h0
  have hall : s1 = s2 ∧ e1 = e2 ∧ m1 = m2 := by
    cases s1 <;> cases s2 <;>
      simp only [Bool.false_eq_true, if_false, if_true] at h h0 <;>
      (refine ⟨?_, ?_, ?_⟩ <;> first | rfl | omega)
  obtain ⟨rfl, rfl, rfl⟩ := hall
  rfl

theorem fclamp_of_num (value min max : F32) (hv : value.isNaN = false) (hle : min ≤ max) :
    fclamp value min max =
      if (if min.key < value.key then value else min).key < max.key then
        (if min.key < value.key then value else min)
      else max := by
  obtain ⟨hmin, hmax, -⟩ := (F32.le_iff _ _).1 hle
  unfold fclamp
  rw [F32.fmax_of_num value min hv hmin]
  have ha : (if min.key < value.key then value else min).isNaN = false := by
    split <;> assumption
  rw [F32.fmin_of_num _ max ha hmax]

theorem fclamp_of_quiet_nan (value min max : F32) (hv : value.isNaN = true)
    (hq : value.isSignaling = false) (hle : min ≤ max) :
    fclamp value min max = if min.key < max.key then min else max := by
  obtain ⟨hmin, hmax, -⟩ := (F32.le_iff _ _).1 hle
  unfold fclamp
  rw [F32.fmax_quiet_left value min hv hq hmin, F32.fmin_of_num min max hmin hmax]

theorem fclamp_of_signaling_nan (value min max : F32) (hs : value.isSignaling = true)
    (hle : min ≤ max) : fclamp value min max = max := by
  obtain ⟨hmin, hmax, -⟩ := (F32.le_iff _ _).1 hle
  have hv := F32.isSignaling_isNaN value hs
  obtain ⟨hn, hq⟩ := F32.quiet_isNaN value hv
  unfold fclamp
  rw [F32.fmax_signaling_left value min hs hmin, F32.fmin_quiet_left _ max hn hq hmax]

theorem fclamp_range (value min max : F32) (hle : min ≤ max) :
    min ≤ fclamp value min max ∧ fclamp value min max ≤ max := by
  obtain ⟨hmin, hmax, hk⟩ := (F32.le_iff _ _).1 hle
  cases hv : value.isNaN
  · rw [fclamp_of_num value min max hv hle]
    by_cases h1 : min.key < value.key <;>
      by_cases h2 : value.key < max.key <;>
      by_cases h3 : min.key < max.key <;>
      simp only [h1, h2, h3, if_true, if_false, F32.le_iff, hmin, hmax, hv, true_and] <;>
      omega
  · cases hs : value.isSignaling
    · rw [fclamp_of_quiet_nan value min max hv hs hle]
      by_cases h3 : min.key < max.key <;>
        simp only [h3, if_true, if_false, F32.le_iff, hmin, hmax, true_and] <;> omega
    · rw [fclamp_of_signaling_nan value min max hs hle]
      simp only [F32.le_iff, hmin, hmax, true_and]
      omega

theorem fclamp_feq_min_of_lt (value min max : F32) (hle : min ≤ max) (hv : value < min) :
    F32.feq (fclamp value min max) min = true := by
  obtain ⟨hmin, hmax, hk⟩ := (F32.le_iff _ _).1 hle
  obtain ⟨hv1, -, hv2⟩ := (F32.lt_iff _ _).1 hv
  rw [fclamp_of_num value min max hv1 hle, F32.feq_iff]
  have h1 : ¬ (min.key < value.key) := by omega
  by_cases h3 : min.key < max.key
  · simp only [h1, h3, if_true, if_false, hmin, hmax, true_and]
  · simp only [h1, h3, if_true, if_false, hmin, hmax, true_and]
    omega

theorem fclamp_of_gt_max (value min max : F32) (hle : min ≤ max) (hv : max < value) :
    fclamp value min max = max := by
  obtain ⟨hmin, hmax, hk⟩ := (F32.le_iff _ _).1 hle
  obtain ⟨-, hv1, hv2⟩ := (F32.lt_iff _ _).1 hv
  rw [fclamp_of_num value min max hv1 hle]
  have h1 : min.key < value.key := by omega
  have h2 : ¬ (value.key < max.key) := by omega
  simp only [h1, h2, if_true, if_false]

theorem fclamp_feq_of_mem (value min max : F32) (h1 : min ≤ value) (h2 : value ≤ max) :
    F32.feq (fclamp value min max) value = true := by
  obtain ⟨hmin, hv, hk1⟩ := (F32.le_iff _ _).1 h1
  obtain ⟨-, hmax, hk2⟩ := (F32.le_iff _ _).1 h2
  have hle : min ≤ max := (F32.le_iff _ _).2 ⟨hmin, hmax, by omega⟩
  rw [fclamp_of_num value min max hv hle, F32.feq_iff]
  by_cases h3 : min.key < value.key <;>
    by_cases h4 : value.key < max.key <;>
    by_cases h5 : min.key < max.key <;>
    simp only [h3, h4, h5, if_true, if_false, hmin, hmax, hv, true_and] <;> omega

/-- C1, as stated, fails on `float`: `clamp` applied to a NaN coordinate with
`lo = -3000.0f <= hi = 3000.0f` returns the NaN itself (both comparisons are
false), and that result is neither `>= lo` nor `<= hi`. -/
theorem clamp_nan_leaves_range :
    F32.neg3000 ≤ F32.pos3000 ∧
    clamp F32.qNaN F32.neg3000 F32.pos3000 = F32.qNaN ∧
    ¬ (F32.neg3000 ≤ clamp F32.qNaN F32.neg3000 F32.pos3000) ∧
    ¬ (clamp F32.qNaN F32.neg3000 F32.pos3000 ≤ F32.pos3000) := by
  decide

/-- C1 (amended): for every `lo <= hi` and every `n` that is not NaN (every
`n` of an integer type, every non-NaN `n` of type `float`), `clamp(n, lo, hi)`
lies in `[lo, hi]`, equals `n` exactly when `lo <= n <= hi`, equals
`clamp(hi, lo, hi) = hi` for every `n > hi`, and equals
`clamp(lo, lo, hi) = lo` for every `n < lo`. -/
theorem clamp_boundary :
    (∀ n lo hi : Int, lo ≤ hi →
      (lo ≤ clamp n lo hi ∧ clamp n lo hi ≤ hi) ∧
      (clamp n lo hi = n ↔ lo ≤ n ∧ n ≤ hi) ∧
      (hi < n → clamp n lo hi = clamp hi lo hi ∧ clamp hi lo hi = hi) ∧
      (n < lo → clamp n lo hi = clamp lo lo hi ∧ clamp lo lo hi = lo)) ∧
    (∀ n lo hi : F32, lo ≤ hi → n.isNaN = false →
      (lo ≤ clamp n lo hi ∧ clamp n lo hi ≤ hi) ∧
      (clamp n lo hi = n ↔ lo ≤ n ∧ n ≤ hi) ∧
      (hi < n → clamp n lo hi = clamp hi lo hi ∧ clamp hi lo hi = hi) ∧
      (n < lo → clamp n lo hi = clamp lo lo hi ∧ clamp lo lo hi = lo)) :=
  ⟨clamp_int_contract, clamp_f32_contract⟩

/-- C1 at concrete inputs: the integer coordinate `5000` and the `float`
coordinate `+INFINITY`, both far outside `[-3000, 3000]`, are clamped to the
value the boundary coordinate itself is clamped to. -/
theorem clamp_boundary_witness :
    ((-3000 : Int) ≤ 3000 ∧ (3000 : Int) < 5000) ∧
    (F32.neg3000 ≤ F32.pos3000 ∧ F32.posInf.isNaN = false ∧ F32.pos3000 < F32.posInf) ∧
    (clamp (5000 : Int) (-3000) 3000 = clamp (3000 : Int) (-3000) 3000 ∧
      clamp (3000 : Int) (-3000) 3000 = 3000) ∧
    (clamp F32.posInf F32.neg3000 F32.pos3000 = clamp F32.pos3000 F32.neg3000 F32.pos3000 ∧
      clamp F32.pos3000 F32.neg3000 F32.pos3000 = F32.pos3000) :=
  ⟨by decide, by decide,
    (clamp_boundary.1 5000 (-3000) 3000 (by decide)).2.2.1 (by decide),
    (clamp_boundary.2 F32.posInf F32.neg3000 F32.pos3000 (by decide) (by decide)).2.2.1
      (by decide)⟩

theorem F32.eq_of_feq (x y : F32) (h : F32.feq x y = true) (h0 : y.key ≠ 0) : x = y := by
  obtain ⟨-, -, hk⟩ := (F32.feq_iff _ _).1 h
  exact F32.eq_of_key_eq x y hk (by rw [hk]; exact h0)

/-- What `fclamp` does for every `min <= max` (neither is NaN then): a quiet NaN
gives a result equal to `min`, a signaling NaN gives `max`; `-INFINITY` and
every value below `min` give a result equal to `min`; `+INFINITY` and every
value above `max` give `max`; the result is never NaN and lies in
`[min, max]`, so with `min = 0.0f` it is never negative. "Equal" is the C++
`==`: the result may be `max` with the bits of `+0.0` where `min` is
`-0.0`. -/
theorem fclamp_contract (value min max : F32) (hle : min ≤ max) :
    (value.isNaN = true → value.isSignaling = false →
      F32.feq (fclamp value min max) min = true) ∧
    (value.isSignaling = true → fclamp value min max = max) ∧
    (value = F32.negInf ∨ value < min → F32.feq (fclamp value min max) min = true) ∧
    (value = F32.posInf ∨ value > max → fclamp value min max = max) ∧
    (fclamp value min max).isNaN = false ∧
    (min ≤ fclamp value min max ∧ fclamp value min max ≤ max) ∧
    (min = F32.zero → ¬ (fclamp value min max < F32.zero)) := by
  obtain ⟨hmin, hmax, hk⟩ := (F32.le_iff _ _).1 hle
  have hrange := fclamp_range value min max hle
  have hnn : (fclamp value min max).isNaN = false := ((F32.le_iff _ _).1 hrange.1).2.1
  refine ⟨?_, fun hs => fclamp_of_signaling_nan value min max hs hle, ?_, ?_, hnn, hrange, ?_⟩
  · intro hv hq
    rw [fclamp_of_quiet_nan value min max hv hq hle, F32.feq_iff]
    by_cases h3 : min.key < max.key
    · simp only [h3, if_true, hmin, true_and]
    · simp only [h3, if_false, hmin, hmax, true_and]
      omega
  · rintro (rfl | hv)
    · by_cases hc : F32.negInf.key < min.key
      · exact fclamp_feq_min_of_lt _ min max hle ((F32.lt_iff _ _).2 ⟨rfl, hmin, hc⟩)
      · have heq : min = F32.negInf :=
          F32.eq_negInf_of_key min (by rw [F32.key_negInf] at hc; omega) hmin
        subst heq
        exact fclamp_feq_of_mem _ _ max ((F32.le_iff _ _).2 ⟨rfl, rfl, le_refl _⟩) hle
    · exact fclamp_feq_min_of_lt value min max hle hv
  · rintro (rfl | hv)
    · by_cases hc : max.key < F32.posInf.key
      · exact fclamp_of_gt_max _ min max hle ((F32.lt_iff _ _).2 ⟨hmax, rfl, hc⟩)
      · have heq : max = F32.posInf :=
          F32.eq_posInf_of_key max (by rw [F32.key_posInf] at hc; omega) hmax
        subst heq
        have h := fclamp_feq_of_mem F32.posInf min F32.posInf hle
          ((F32.le_iff _ _).2 ⟨rfl, rfl, le_refl _⟩)
        exact F32.eq_of_feq _ _ h (by decide)
    · exact fclamp_of_gt_max value min max hle hv
  · rintro rfl hc
    have h1 := ((F32.lt_iff _ _).1 hc).2.2
    have h2 := ((F32.le_iff _ _).1 hrange.1).2.2
    omega

/-- C9, as stated, fails on the sign of zero: for `value = -0.0f`,
`min = 0.0f`, `max = 1.0f`, none NaN and `min <= max`, `fclamp` returns
`+0.0f` (`std::fmax` returns its second operand when the two compare equal)
while the generic `clamp` returns `value`, that is `-0.0f`. -/
theorem fclamp_clamp_differ_in_zero_sign :
    F32.negZero.isNaN = false ∧ F32.zero.isNaN = false ∧ F32.one.isNaN = false ∧
    F32.zero ≤ F32.one ∧
    fclamp F32.negZero F32.zero F32.one = F32.zero ∧
    clamp F32.negZero F32.zero F32.one = F32.negZero ∧
    fclamp F32.negZero F32.zero F32.one ≠ clamp F32.negZero F32.zero F32.one := by
  decide

/-- C9 (amended): for every `value`, `min` and `max` that are not NaN with
`min <= max`, `fclamp(value, min, max)` returns a result that compares equal
(`==`) to that of the generic `clamp(value, min, max)`, and the very same value
unless that result is a zero, whose sign may differ. -/
theorem fclamp_equiv_clamp (value min max : F32) (hv : value.isNaN = false)
    (hmin : min.isNaN = false) (hmax : max.isNaN = false) (hle : min ≤ max) :
    F32.feq (fclamp value min max) (clamp value min max) = true ∧
    ((clamp value min max).key ≠ 0 → fclamp value min max = clamp value min max) := by
  have hfeq : F32.feq (fclamp value min max) (clamp value min max) = true := by
    unfold clamp
    split_ifs with h1 h2
    · exact fclamp_feq_min_of_lt value min max hle h1
    · rw [fclamp_of_gt_max value min max hle h2, F32.feq_iff]
      exact ⟨hmax, hmax, rfl⟩
    · rw [gt_iff_lt, F32.lt_iff] at h2
      rw [F32.lt_iff] at h1
      simp only [hv, hmin, hmax, true_and, not_lt] at h1 h2
      exact fclamp_feq_of_mem value min max ((F32.le_iff _ _).2 ⟨hmin, hv, h1⟩)
        ((F32.le_iff _ _).2 ⟨hv, hmax, h2⟩)
  exact ⟨hfeq, fun h0 => F32.eq_of_feq _ _ hfeq h0⟩

/-- C9 at a concrete input: `+INFINITY` clamped to `[-3000.0f, 3000.0f]` by
either function gives `3000.0f`. -/
theorem fclamp_equiv_clamp_witness :
    (F32.posInf.isNaN = false ∧ F32.neg3000.isNaN = false ∧ F32.pos3000.isNaN = false ∧
      F32.neg3000 ≤ F32.pos3000) ∧
    (clamp F32.posInf F32.neg3000 F32.pos3000).key ≠ 0 ∧
    fclamp F32.posInf F32.neg3000 F32.pos3000 = clamp F32.posInf F32.neg3000 F32.pos3000 :=
  ⟨⟨rfl, rfl, rfl, by decide⟩, by decide,
    (fclamp_equiv_clamp F32.posInf F32.neg3000 F32.pos3000 rfl rfl rfl (by decide)).2
      (by decide)⟩

set_option maxRecDepth 100000 in
/-- The eight bit positions read by `setBits8` are the binary representation
of an 8-bit value: weighting each set bit by its power of two gives the value
back. -/
theorem setBits8_binary : ∀ i : Fin 256,
    ((List.range 8).map (fun k => if i.val.testBit k then 2 ^ k else 0)).sum = i.val := by
  decide

set_option maxRecDepth 100000 in
/-- C8: for every 8-bit unsigned `i`, `popcnt_uint8(i)` is the number of bits
set to 1 in the binary representation of `i`, and lies in `0..8`. -/
theorem popcnt_uint8_correct : ∀ i : Fin 256,
    popcnt_uint8 i.val = setBits8 i.val ∧ popcnt_uint8 i.val ≤ 8 := by
  decide

/-- C3: `NeeCachePass` declares exactly ten options, all in the category
`rtx.neeCache`: seven of type `bool` and three of type `float`, with the
names the specification lists. -/
theorem neeCache_option_surface :
    NeeCachePass.options.map (fun o => (o.category, o.name, o.type)) =
      [ ("rtx.neeCache", "enable", OptionType.bool),
        ("rtx.neeCache", "enableImportanceSampling", OptionType.bool),
        ("rtx.neeCache", "enableMIS", OptionType.bool),
        ("rtx.neeCache", "enableJittering", OptionType.bool),
        ("rtx.neeCache", "enableInFirstBounce", OptionType.bool),
        ("rtx.neeCache", "enableInSecondAndMoreBounces", OptionType.bool),
        ("rtx.neeCache", "enableRandomReplacement", OptionType.bool),
        ("rtx.neeCache", "range", OptionType.float),
        ("rtx.neeCache", "emissiveTextureSampleFootprintSize", OptionType.float),
        ("rtx.neeCache", "ageCullingSpeed", OptionType.float) ] ∧
    NeeCachePass.options.length = 10 ∧
    (NeeCachePass.options.map (fun o => o.name)).Nodup := by
  refine ⟨rfl, rfl, ?_⟩
  decide

/-- C4: in the default configuration `enableRandomReplacement` is `false`
(the greedy admission policy), and each of the six other `bool` options is
`true`. -/
theorem neeCache_default_policy_greedy :
    (NeeCachePass.defaultOf "enableRandomReplacement" = some (.boolLit false) ∧
      NeeCachePass.defaultOf "enable" = some (.boolLit true) ∧
      NeeCachePass.defaultOf "enableImportanceSampling" = some (.boolLit true) ∧
      NeeCachePass.defaultOf "enableMIS" = some (.boolLit true) ∧
      NeeCachePass.defaultOf "enableJittering" = some (.boolLit true) ∧
      NeeCachePass.defaultOf "enableInFirstBounce" = some (.boolLit true) ∧
      NeeCachePass.defaultOf "enableInSecondAndMoreBounces" = some (.boolLit true)) ∧
    (NeeCachePass.defaultConfig.enableRandomReplacement = false ∧
      NeeCachePass.defaultConfig.enable = true ∧
      NeeCachePass.defaultConfig.enableImportanceSampling = true ∧
      NeeCachePass.defaultConfig.enableMIS = true ∧
      NeeCachePass.defaultConfig.enableJittering = true ∧
      NeeCachePass.defaultConfig.enableInFirstBounce = true ∧
      NeeCachePass.defaultConfig.enableInSecondAndMoreBounces = true) := by
  decide

theorem acceptsConfig_eq_false_iff (c : NeeCacheConfig) :
    acceptsConfig c = false ↔ (c.range ≤ 0 ∨ c.ageCullingSpeed ≤ 0) := by
  unfold acceptsConfig validateConfig
  by_cases h1 : c.range ≤ 0
  · simp [h1]
  · by_cases h2 : c.ageCullingSpeed ≤ 0
    · simp [h1, h2]
    · simp [h1, h2]

/-- C10: the declared defaults of `range` (3000), `ageCullingSpeed` (0.02) and
`emissiveTextureSampleFootprintSize` (1.0) are strictly positive, so every
validator that rejects exactly the configurations with a non-positive `range`
or `ageCullingSpeed` accepts the default configuration. -/
theorem neeCache_defaults_valid (validate : NeeCacheConfig → Bool)
    (hval : ∀ c, validate c = false ↔ (c.range ≤ 0 ∨ c.ageCullingSpeed ≤ 0)) :
    (NeeCachePass.defaultOf "range" = some (.floatLit 3000) ∧
      NeeCachePass.defaultOf "ageCullingSpeed" = some (.floatLit 0.02) ∧
      NeeCachePass.defaultOf "emissiveTextureSampleFootprintSize" = some (.floatLit 1.0)) ∧
    (0 < NeeCachePass.defaultConfig.range ∧
      0 < NeeCachePass.defaultConfig.ageCullingSpeed ∧
      0 < NeeCachePass.defaultConfig.emissiveTextureSampleFootprintSize) ∧
    validate NeeCachePass.defaultConfig = true := by
  have hr : NeeCachePass.defaultConfig.range = 3000 := rfl
  have ha : NeeCachePass.defaultConfig.ageCullingSpeed = 0.02 := rfl
  have hf : NeeCachePass.defaultConfig.emissiveTextureSampleFootprintSize = 1.0 := rfl
  refine ⟨⟨rfl, rfl, rfl⟩, ⟨?_, ?_, ?_⟩, ?_⟩
  · rw [hr]; norm_num
  · rw [ha]; norm_num
  · rw [hf]; norm_num
  · cases hv : validate NeeCachePass.defaultConfig
    · exfalso
      have := (hval _).1 hv
      rw [hr, ha] at this
      norm_num at this
    · rfl

/-- C10 at a concrete validator: the configuration-load check of the
specification accepts the default configuration. -/
theorem neeCache_defaults_valid_witness :
    (∀ c, acceptsConfig c = false ↔ (c.range ≤ 0 ∨ c.ageCullingSpeed ≤ 0)) ∧
    acceptsConfig NeeCachePass.defaultConfig = true :=
  ⟨acceptsConfig_eq_false_iff,
    (neeCache_defaults_valid acceptsConfig acceptsConfig_eq_false_iff).2.2⟩

namespace CandidateSet

theorem lowest_eq_none_iff (l : List Candidate) : lowest l = none ↔ l = [] := by
  cases l with
  | nil => simp [lowest]
  | cons c cs =>
    simp only [lowest, reduceCtorEq, iff_false]
    cases h : lowest cs with
    | none => simp
    | some r =>
      obtain ⟨j, m⟩ := r
      simp only
      split <;> simp

theorem lowest_spec (l : List Candidate) (i : Nat) (m : ℚ) (h : lowest l = some (i, m)) :
    (∃ c, l[i]? = some c ∧ c.score = m) ∧ (∀ c ∈ l, m ≤ c.score) ∧
    (∀ j c, j < i → l[j]? = some c → m < c.score) := by
  induction l generalizing i m with
  | nil => simp [lowest] at h
  | cons c cs ih =>
    simp only [lowest] at h
    cases hl : lowest cs with
    | none =>
      rw [hl] at h
      simp only [Option.some.injEq, Prod.mk.injEq] at h
      obtain ⟨rfl, rfl⟩ := h
      have hnil := (lowest_eq_none_iff cs).1 hl
      subst hnil
      simp
    | some r =>
      obtain ⟨j, mj⟩ := r
      rw [hl] at h
      obtain ⟨⟨cj, hcj, hsj⟩, hmin, hfirst⟩ := ih j mj hl
      by_cases hle : c.score ≤ mj
      · simp only [hle, if_true, Option.some.injEq, Prod.mk.injEq] at h
        obtain ⟨rfl, rfl⟩ := h
        refine ⟨⟨c, by simp, rfl⟩, ?_, ?_⟩
        · intro d hd
          rcases List.mem_cons.1 hd with rfl | hd
          · exact le_refl _
          · exact le_trans hle (hmin d hd)
        · intro k d hk
          omega
      · simp only [hle, if_false, Option.some.injEq, Prod.mk.injEq] at h
        obtain ⟨rfl, rfl⟩ := h
        refine ⟨⟨cj, by simpa using hcj, hsj⟩, ?_, ?_⟩
        · intro d hd
          rcases List.mem_cons.1 hd with rfl | hd
          · exact le_of_lt (lt_of_not_ge hle)
          · exact hmin d hd
        · intro k d hk hd
          cases k with
          | zero =>
            simp only [List.getElem?_cons_zero, Option.some.injEq] at hd
            subst hd
            exact lt_of_not_ge hle
          | succ k =>
            simp only [List.getElem?_cons_succ] at hd
            exact hfirst k d (by omega) hd

/-- C6: under the greedy policy (`enableRandomReplacement = false`), for a
full set and a `triangleId` not in it: if some candidate scores strictly less
than `proposedScore`, the offer is admitted, exactly one slot changes, the
candidate that was in it had the minimum score, the slot now holds the new
triangle with age 0 and every other slot is unchanged; if no candidate scores
less than `proposedScore`, the offer is rejected and the set is unchanged. -/
theorem greedy_eviction (blend : ℚ) (s : CandidateSet) (triangleId : Nat)
    (proposedScore : ℚ) (rnd : Nat)
    (hfull : s.entries.length = s.capacity)
    (hnew : s.contains triangleId = false) :
    ((∃ c ∈ s.entries, c.score < proposedScore) →
      (offer false blend s triangleId proposedScore rnd).2 = true ∧
      (offer false blend s triangleId proposedScore rnd).1.capacity = s.capacity ∧
      ∃ i victim, s.entries[i]? = some victim ∧
        (∀ c ∈ s.entries, victim.score ≤ c.score) ∧
        (offer false blend s triangleId proposedScore rnd).1.entries =
          s.entries.set i ⟨triangleId, proposedScore, 0⟩ ∧
        (offer false blend s triangleId proposedScore rnd).1.entries.length =
          s.entries.length ∧
        (offer false blend s triangleId proposedScore rnd).1.entries[i]? =
          some ⟨triangleId, proposedScore, 0⟩ ∧
        ∀ j, j ≠ i →
          (offer false blend s triangleId proposedScore rnd).1.entries[j]? = s.entries[j]?) ∧
    ((∀ c ∈ s.entries, proposedScore ≤ c.score) →
      offer false blend s triangleId proposedScore rnd = (s, false)) := by
  have hsz : ¬ (s.entries.length < s.capacity) := by omega
  have hoffer : offer false blend s triangleId proposedScore rnd =
      match lowest s.entries with
      | none => (s, false)
      | some (i, m) =>
        if proposedScore > m then
          (⟨s.capacity, s.entries.set i ⟨triangleId, proposedScore, 0⟩⟩, true)
        else (s, false) := by
    unfold offer
    simp only [hnew, Bool.false_eq_true, if_false, hsz]
  rw [hoffer]
  constructor
  · rintro ⟨c, hc, hlt⟩
    cases hl : lowest s.entries with
    | none =>
      rw [(lowest_eq_none_iff _).1 hl] at hc
      simp at hc
    | some r =>
      obtain ⟨i, m⟩ := r
      obtain ⟨⟨victim, hv, hvm⟩, hmin, -⟩ := lowest_spec _ i m hl
      have hgt : proposedScore > m := lt_of_le_of_lt (hmin c hc) hlt
      simp only [hgt, if_true]
      refine ⟨trivial, trivial, i, victim, hv, ?_, rfl, ?_, ?_, ?_⟩
      · intro d hd
        rw [hvm]
        exact hmin d hd
      · simp
      · have hi : i < s.entries.length := by
          by_contra hcon
          rw [List.getElem?_eq_none (by omega)] at hv
          simp at hv
        simp [List.getElem?_set, hi]
      · intro j hj
        simp [List.getElem?_set, Ne.symm hj]
  · intro hall
    cases hl : lowest s.entries with
    | none => rfl
    | some r =>
      obtain ⟨i, m⟩ := r
      obtain ⟨⟨victim, hv, hvm⟩, -, -⟩ := lowest_spec _ i m hl
      have hmem : victim ∈ s.entries := List.getElem?_mem hv
      have hle : ¬ (proposedScore > m) := by
        rw [← hvm]
        exact not_lt.2 (hall victim hmem)
      simp only [hle, if_false]

/-- C6 at a concrete input: the full set `[(7, 3), (8, 1)]` of capacity 2 and
the offer `(9, 2)`: the score-1 candidate is replaced. -/
theorem greedy_eviction_witness :
    ((⟨2, [⟨7, 3, 0⟩, ⟨8, 1, 4⟩]⟩ : CandidateSet).entries.length = 2 ∧
      (⟨2, [⟨7, 3, 0⟩, ⟨8, 1, 4⟩]⟩ : CandidateSet).contains 9 = false ∧
      ∃ c ∈ (⟨2, [⟨7, 3, 0⟩, ⟨8, 1, 4⟩]⟩ : CandidateSet).entries, c.score < 2) ∧
    (offer false (1 / 2) ⟨2, [⟨7, 3, 0⟩, ⟨8, 1, 4⟩]⟩ 9 2 0).2 = true ∧
    (offer false (1 / 2) ⟨2, [⟨7, 3, 0⟩, ⟨8, 1, 4⟩]⟩ 9 2 0).1.entries =
      [⟨7, 3, 0⟩, ⟨9, 2, 0⟩] :=
  have hex : ∃ c ∈ (⟨2, [⟨7, 3, 0⟩, ⟨8, 1, 4⟩]⟩ : CandidateSet).entries, c.score < 2 :=
    ⟨⟨8, 1, 4⟩, by simp, by norm_num⟩
  ⟨⟨rfl, rfl, hex⟩,
    ((greedy_eviction (1 / 2) ⟨2, [⟨7, 3, 0⟩, ⟨8, 1, 4⟩]⟩ 9 2 0 rfl rfl).1 hex).1, by
    simp [offer, contains, lowest]
    rfl⟩

end CandidateSet

namespace Sampler

theorem totalScore_cons (c : Candidate) (l : List Candidate) :
    totalScore (c :: l) = c.score + totalScore l := by
  simp [totalScore]

theorem totalScore_nonneg (l : List Candidate) (h : ∀ c ∈ l, 0 ≤ c.score) :
    0 ≤ totalScore l := by
  induction l with
  | nil => simp [totalScore]
  | cons c cs ih =>
    rw [totalScore_cons]
    have h1 := h c (List.mem_cons_self _ _)
    have h2 := ih (fun d hd => h d (List.mem_cons_of_mem _ hd))
    linarith

theorem score_le_totalScore (l : List Candidate) (h : ∀ c ∈ l, 0 ≤ c.score) :
    ∀ c ∈ l, c.score ≤ totalScore l := by
  induction l with
  | nil => simp
  | cons d ds ih =>
    intro c hc
    rw [totalScore_cons]
    have h1 := h d (List.mem_cons_self _ _)
    have hds : ∀ e ∈ ds, 0 ≤ e.score := fun e he => h e (List.mem_cons_of_mem _ he)
    have h2 := totalScore_nonneg ds hds
    rcases List.mem_cons.1 hc with rfl | hc
    · linarith
    · have := ih hds c hc
      linarith

theorem pickProportional_spec (l : List Candidate) (h : ∀ c ∈ l, 0 ≤ c.score) :
    ∀ t : ℚ, 0 ≤ t → t < totalScore l →
      ∃ c ∈ l, pickProportional l t = some c ∧ 0 < c.score := by
  induction l with
  | nil =>
    intro t h0 h1
    simp [totalScore] at h1
    linarith
  | cons c cs ih =>
    intro t h0 h1
    cases cs with
    | nil =>
      refine ⟨c, List.mem_cons_self _ _, rfl, ?_⟩
      simp [totalScore] at h1
      linarith
    | cons d ds =>
      unfold pickProportional
      by_cases hlt : t < c.score
      · exact ⟨c, List.mem_cons_self _ _, by simp [hlt], by linarith⟩
      · simp only [hlt, if_false]
        rw [totalScore_cons] at h1
        obtain ⟨e, he, hpick, hpos⟩ :=
          ih (fun e he => h e (List.mem_cons_of_mem _ he)) (t - c.score)
            (by linarith) (by linarith)
        exact ⟨e, List.mem_cons_of_mem _ he, hpick, hpos⟩

theorem pickUniform_spec (l : List Candidate) (u : ℚ) (hne : l ≠ []) :
    ∃ c ∈ l, pickUniform l u = some c := by
  have hpos : 0 < l.length := List.length_pos.2 hne
  have hi : min (⌊u * l.length⌋.toNat) (l.length - 1) < l.length := by
    have := Nat.min_le_right (⌊u * l.length⌋.toNat) (l.length - 1)
    omega
  refine ⟨l[min (⌊u * l.length⌋.toNat) (l.length - 1)], List.getElem_mem _, ?_⟩
  unfold pickUniform
  exact List.getElem?_eq_getElem hi

theorem sum_selectionProbability (l : List Candidate) (flag : Bool) (hne : l ≠ []) :
    (l.map (selectionProbability l flag)).sum = 1 := by
  have hpos : 0 < l.length := List.length_pos.2 hne
  have hlen : (l.length : ℚ) ≠ 0 := by
    have : (0 : ℚ) < l.length := by exact_mod_cast hpos
    exact ne_of_gt this
  by_cases hc : flag = true ∧ 0 < totalScore l
  · have hfun : selectionProbability l flag = fun c => c.score / totalScore l := by
      funext c
      simp [selectionProbability, hc]
    rw [hfun]
    have hgen : ∀ (m : List Candidate) (T : ℚ),
        (m.map (fun c => c.score / T)).sum = totalScore m / T := by
      intro m T
      induction m with
      | nil => simp [totalScore]
      | cons d ds ih =>
        simp only [List.map_cons, List.sum_cons, ih, totalScore_cons]
        ring
    rw [hgen]
    exact div_self (ne_of_gt hc.2)
  · have hfun : selectionProbability l flag = fun _ => 1 / (l.length : ℚ) := by
      funext c
      simp [selectionProbability, hc]
    rw [hfun]
    simp only [List.map_const', List.sum_replicate, smul_eq_mul]
    field_simp

theorem sample_spec (l : List Candidate) (flag : Bool) (u : ℚ) (hne : l ≠ [])
    (hscore : ∀ c ∈ l, 0 ≤ c.score) (hu0 : 0 ≤ u) (hu1 : u < 1) :
    ∃ c ∈ l, sample l flag u = some ⟨c.triangleId, selectionProbability l flag c⟩ ∧
      0 < selectionProbability l flag c ∧ selectionProbability l flag c ≤ 1 := by
  have hempty : l.isEmpty = false := by
    cases l with
    | nil => exact absurd rfl hne
    | cons c cs => rfl
  have hpos : 0 < l.length := List.length_pos.2 hne
  have hlen : (1 : ℚ) ≤ l.length := by exact_mod_cast hpos
  by_cases hc : flag = true ∧ 0 < totalScore l
  · obtain ⟨c, hcl, hpick, hcpos⟩ := pickProportional_spec l hscore (u * totalScore l)
      (mul_nonneg hu0 (le_of_lt hc.2)) (by nlinarith [hc.2])
    refine ⟨c, hcl, ?_, ?_, ?_⟩
    · simp [sample, hempty, hc, hpick]
    · simp only [selectionProbability, hc, and_self, if_true]
      exact div_pos hcpos hc.2
    · simp only [selectionProbability, hc, and_self, if_true]
      rw [div_le_one hc.2]
      exact score_le_totalScore l hscore c hcl
  · obtain ⟨c, hcl, hpick⟩ := pickUniform_spec l u hne
    refine ⟨c, hcl, ?_, ?_, ?_⟩
    · simp [sample, hempty, hc, hpick]
    · simp only [selectionProbability, hc, if_false]
      positivity
    · simp only [selectionProbability, hc, if_false]
      rw [div_le_one (by linarith)]
      exact hlen

/-- C7: for every non-empty candidate set (scores `>= 0`) and every draw `u` in
`[0, 1)`: with importance sampling, `sample` reports for the drawn candidate
its score divided by the sum of all scores when that sum is positive, and
`1/size` when the sum is zero; without importance sampling it reports `1/size`;
in every case the reported value lies in `(0, 1]` and the probabilities
reported over all candidates sum to 1; for an empty set `sample` returns
Empty. -/
theorem sample_probability (l : List Candidate) (u : ℚ) (hne : l ≠ [])
    (hscore : ∀ c ∈ l, 0 ≤ c.score) (hu0 : 0 ≤ u) (hu1 : u < 1) :
    (∃ c ∈ l, sample l true u =
      some ⟨c.triangleId,
        if 0 < totalScore l then c.score / totalScore l else 1 / (l.length : ℚ)⟩) ∧
    (∃ c ∈ l, sample l false u = some ⟨c.triangleId, 1 / (l.length : ℚ)⟩) ∧
    (∀ flag r, sample l flag u = some r →
      0 < r.selectionProbability ∧ r.selectionProbability ≤ 1) ∧
    (∀ flag, ∃ c ∈ l, sample l flag u =
      some ⟨c.triangleId, selectionProbability l flag c⟩) ∧
    (∀ flag, (l.map (selectionProbability l flag)).sum = 1) ∧
    (∀ flag v, sample [] flag v = none) := by
  refine ⟨?_, ?_, ?_, ?_, ?_, ?_⟩
  · obtain ⟨c, hcl, hs, -, -⟩ := sample_spec l true u hne hscore hu0 hu1
    refine ⟨c, hcl, ?_⟩
    rw [hs]
    simp [selectionProbability]
  · obtain ⟨c, hcl, hs, -, -⟩ := sample_spec l false u hne hscore hu0 hu1
    refine ⟨c, hcl, ?_⟩
    rw [hs]
    simp [selectionProbability]
  · intro flag r hr
    obtain ⟨c, -, hs, h0, h1⟩ := sample_spec l flag u hne hscore hu0 hu1
    rw [hs] at hr
    simp only [Option.some.injEq] at hr
    subst hr
    exact ⟨h0, h1⟩
  · intro flag
    obtain ⟨c, hcl, hs, -, -⟩ := sample_spec l flag u hne hscore hu0 hu1
    exact ⟨c, hcl, hs⟩
  · intro flag
    exact sum_selectionProbability l flag hne
  · intro flag v
    rfl

/-- C7 at a concrete input: the scores `2, 2, 4` of the specification and the
draw `u = 3/4`: the random point `6` falls in the interval of the score-4
candidate, reported with probability `4/8`. -/
theorem sample_probability_witness :
    (([⟨10, 2, 0⟩, ⟨11, 2, 0⟩, ⟨12, 4, 0⟩] : List Candidate) ≠ [] ∧
      (∀ c ∈ ([⟨10, 2, 0⟩, ⟨11, 2, 0⟩, ⟨12, 4, 0⟩] : List Candidate), 0 ≤ c.score) ∧
      (0 : ℚ) ≤ 3 / 4 ∧ (3 / 4 : ℚ) < 1) ∧
    (∀ flag r, sample [⟨10, 2, 0⟩, ⟨11, 2, 0⟩, ⟨12, 4, 0⟩] flag (3 / 4) = some r →
      0 < r.selectionProbability ∧ r.selectionProbability ≤ 1) ∧
    sample [⟨10, 2, 0⟩, ⟨11, 2, 0⟩, ⟨12, 4, 0⟩] true (3 / 4) = some ⟨12, 1 / 2⟩ :=
  have hne : ([⟨10, 2, 0⟩, ⟨11, 2, 0⟩, ⟨12, 4, 0⟩] : List Candidate) ≠ [] := by simp
  have hs : ∀ c ∈ ([⟨10, 2, 0⟩, ⟨11, 2, 0⟩, ⟨12, 4, 0⟩] : List Candidate), 0 ≤ c.score := by
    simp
  have h0 : (0 : ℚ) ≤ 3 / 4 := by norm_num
  have h1 : (3 / 4 : ℚ) < 1 := by norm_num
  ⟨⟨hne, hs, h0, h1⟩, (sample_probability _ (3 / 4) hne hs h0 h1).2.2.1, by
    simp [sample, selectionProbability, totalScore, pickProportional]
    norm_num⟩

end Sampler

theorem wrapU_cast (w : Nat) (x : Int) : ((wrapU w x : Nat) : Int) = x % 2 ^ w := by
  unfold wrapU
  exact Int.toNat_of_nonneg (Int.emod_nonneg _ (by positivity))

theorem wrapU_eq_of_lt (w : Nat) (x : Int) (n : Nat) (hx : x = n) (hn : n < 2 ^ w) :
    wrapU w x = n := by
  subst hx
  unfold wrapU
  have h : ((n : Int) % 2 ^ w) = n := by
    apply Int.emod_eq_of_lt (by positivity)
    exact_mod_cast hn
  rw [h]
  simp

theorem usub_uadd_one (w a b : Nat) (hpos : 1 ≤ a + b) (h : a + b - 1 < 2 ^ w) :
    usub w (uadd w a b) 1 = a + b - 1 := by
  unfold usub uadd
  rw [wrapU_cast]
  unfold wrapU
  have h1 : (((a : Int) + b) % 2 ^ w - ((1 : Nat) : Int)) % 2 ^ w = ((a + b - 1 : Nat) : Int) := by
    rw [Int.sub_eq_add_neg, Int.emod_add_emod]
    have : (a : Int) + b + -((1 : Nat) : Int) = ((a + b - 1 : Nat) : Int) := by omega
    rw [this]
    apply Int.emod_eq_of_lt (by positivity)
    exact_mod_cast h
  rw [h1]
  simp

theorem usub_of_le (w a b : Nat) (hb : b ≤ a) (ha : a < 2 ^ w) : usub w a b = a - b := by
  unfold usub
  exact wrapU_eq_of_lt w _ (a - b) (by omega) (by omega)

theorem uadd_of_lt (w a b : Nat) (h : a + b < 2 ^ w) : uadd w a b = a + b := by
  unfold uadd
  exact wrapU_eq_of_lt w _ (a + b) (by omega) h

theorem umul_of_lt (w a b : Nat) (h : a * b < 2 ^ w) : umul w a b = a * b := by
  unfold umul
  exact wrapU_eq_of_lt w _ (a * b) (by push_cast; rfl) h

theorem and_unot_pow (w k x : Nat) (hx : x < 2 ^ w) (hk : k ≤ w) :
    x &&& unot w (2 ^ k - 1) = x / 2 ^ k * 2 ^ k := by
  have hlt : 2 ^ k - 1 < 2 ^ w := by
    have : 2 ^ k ≤ 2 ^ w := Nat.pow_le_pow_right (by norm_num) hk
    have : 0 < 2 ^ k := Nat.two_pow_pos k
    omega
  have hun : unot w (2 ^ k - 1) = 2 ^ w - ((2 ^ k - 1) + 1) := by
    unfold unot
    rw [Nat.mod_eq_of_lt hlt]
    omega
  rw [hun]
  apply Nat.eq_of_testBit_eq
  intro i
  rw [Nat.testBit_and, Nat.testBit_two_pow_sub_succ hlt, Nat.testBit_two_pow_sub_one,
    Nat.mul_comm, Nat.testBit_mul_pow_two, ← Nat.shiftRight_eq_div_pow, Nat.testBit_shiftRight]
  by_cases hik : i < k
  · have : ¬ (i ≥ k) := by omega
    simp [hik, this]
  · have hge : i ≥ k := by omega
    have hadd : k + (i - k) = i := by omega
    by_cases hiw : i < w
    · simp [hik, hge, hiw, hadd]
    · have : x < 2 ^ i := lt_of_lt_of_le hx (Nat.pow_le_pow_right (by norm_num) (by omega))
      simp [hik, hge, hiw, hadd, Nat.testBit_lt_two_pow this]

theorem roundDown_spec (t x : Nat) (ht : 0 < t) :
    IsGreatestMultipleLE t x (x / t * t) ∧ x < x / t * t + t ∧ x / t * t = x - x % t := by
  have h1 := Nat.div_add_mod x t
  have h2 := Nat.mod_lt x ht
  have h3 : x / t * t = t * (x / t) := Nat.mul_comm _ _
  refine ⟨⟨Dvd.intro_left _ rfl, by omega, ?_⟩, by omega, by omega⟩
  rintro m ⟨c, rfl⟩ hm
  rw [h3]
  apply Nat.mul_le_mul_left
  rw [Nat.le_div_iff_mul_le ht, Nat.mul_comm]
  exact hm

theorem roundUp_spec (t x : Nat) (ht : 0 < t) :
    IsLeastMultipleGE t x ((x + t - 1) / t * t) ∧ (x + t - 1) / t * t < x + t ∧
    ((x + t - 1) / t * t = x ↔ t ∣ x) := by
  obtain ⟨⟨hd, hle, hgreat⟩, hlt, -⟩ := roundDown_spec t (x + t - 1) ht
  have hx : x ≤ (x + t - 1) / t * t := by omega
  have hleast : ∀ m, t ∣ m → x ≤ m → (x + t - 1) / t * t ≤ m := by
    rintro m ⟨c, rfl⟩ hm
    by_contra hcon
    obtain ⟨d, hd2⟩ := hd
    rw [hd2] at hcon hle
    have hcd : c < d := by
      by_contra h
      exact hcon (Nat.mul_le_mul_left t (by omega))
    have : t * (c + 1) ≤ t * d := Nat.mul_le_mul_left t hcd
    rw [Nat.mul_succ] at this
    omega
  refine ⟨⟨hd, hx, hleast⟩, by omega, ?_⟩
  constructor
  · intro h
    rw [← h]
    exact hd
  · intro h
    have := hleast x h (le_refl _)
    omega

theorem isLeastMultipleGE_unique (t x r r2 : Nat) (h : IsLeastMultipleGE t x r)
    (h2 : IsLeastMultipleGE t x r2) : r = r2 :=
  Nat.le_antisymm (h.2.2 r2 h2.1 h2.2.1) (h2.2.2 r h.1 h.2.1)

theorem usub_pow_one (w k : Nat) (hk : k < w) : usub w (2 ^ k) 1 = 2 ^ k - 1 := by
  have h1 : 0 < 2 ^ k := Nat.two_pow_pos k
  have h2 : 2 ^ k < 2 ^ w := Nat.pow_lt_pow_right (by norm_num) hk
  exact usub_of_le w _ 1 h1 h2

theorem align_eq (w k what : Nat) (hk : k < w) (hno : what + 2 ^ k - 1 < 2 ^ w) :
    align w what (2 ^ k) = (what + 2 ^ k - 1) / 2 ^ k * 2 ^ k := by
  have h1 : 0 < 2 ^ k := Nat.two_pow_pos k
  unfold align
  rw [usub_pow_one w k hk, usub_uadd_one w what (2 ^ k) (by omega) hno,
    and_unot_pow w k _ hno (le_of_lt hk)]

theorem align_safe_eq (w k what maxValue : Nat) (hk : k < w) (hle : what ≤ maxValue)
    (hmax : maxValue < 2 ^ w) :
    uadd w what (min (usub w maxValue what) (usub w (2 ^ k) 1)) =
      what + min (maxValue - what) (2 ^ k - 1) ∧
    what + min (maxValue - what) (2 ^ k - 1) ≤ maxValue ∧
    align_safe w what (2 ^ k) maxValue =
      (what + min (maxValue - what) (2 ^ k - 1)) / 2 ^ k * 2 ^ k := by
  have hs : what + min (maxValue - what) (2 ^ k - 1) ≤ maxValue := by
    have := Nat.min_le_left (maxValue - what) (2 ^ k - 1)
    omega
  have hadd : uadd w what (min (usub w maxValue what) (usub w (2 ^ k) 1)) =
      what + min (maxValue - what) (2 ^ k - 1) := by
    rw [usub_pow_one w k hk, usub_of_le w maxValue what hle hmax]
    exact uadd_of_lt w _ _ (by omega)
  refine ⟨hadd, hs, ?_⟩
  unfold align_safe
  rw [hadd, usub_pow_one w k hk, and_unot_pow w k _ (by omega) (le_of_lt hk)]

theorem two_pow_dvd_two_pow (k w : Nat) (hk : k ≤ w) : 2 ^ k ∣ 2 ^ w :=
  pow_dvd_pow 2 hk

/-- C11: for every `w`-bit unsigned `what` and every power of two `to = 2^k`
of the same type such that `what + to - 1 < 2^w`, `align(what, to)` is the
least multiple of `to` that is `>= what`; hence
`what <= align(what, to) < what + to`, and `align(what, to) = what` exactly
when `what` is a multiple of `to`. (`what < 2^w` follows from the bound on
`what + to - 1`.) -/
theorem align_least_multiple (w k what : Nat) (hk : k < w)
    (hno : what + 2 ^ k - 1 < 2 ^ w) :
    IsLeastMultipleGE (2 ^ k) what (align w what (2 ^ k)) ∧
    what ≤ align w what (2 ^ k) ∧
    align w what (2 ^ k) < what + 2 ^ k ∧
    (align w what (2 ^ k) = what ↔ 2 ^ k ∣ what) := by
  rw [align_eq w k what hk hno]
  obtain ⟨h1, h2, h3⟩ := roundUp_spec (2 ^ k) what (Nat.two_pow_pos k)
  exact ⟨h1, h1.2.1, h2, h3⟩

/-- C11 at a concrete input: on 8 bits, `align(13, 4) = 16`. -/
theorem align_least_multiple_witness :
    (2 < 8 ∧ 13 + 2 ^ 2 - 1 < 2 ^ 8) ∧ align 8 13 (2 ^ 2) = 16 ∧
    IsLeastMultipleGE (2 ^ 2) 13 (align 8 13 (2 ^ 2)) :=
  ⟨by decide, by decide,
    (align_least_multiple 8 2 13 (by decide) (by decide)).1⟩

/-- C12: for every `w`-bit unsigned `what <= maxValue` and every power of two
`to = 2^k` of the same type, `align_safe(what, to, maxValue)` computes without
wrap-around (the sum `what + min(maxValue - what, to - 1)` is the exact one and
is `<= maxValue`); with `r` the least multiple of `to` that is `>= what`, it
returns `r`, which is also `align(what, to)`, when `r <= maxValue`, and
otherwise the greatest multiple of `to` that is `<= maxValue`, which is then
strictly less than `what`; the result is always a multiple of `to` and
`<= maxValue`. -/
theorem align_safe_contract (w k what maxValue : Nat) (hk : k < w) (hle : what ≤ maxValue)
    (hmax : maxValue < 2 ^ w) :
    (uadd w what (min (usub w maxValue what) (usub w (2 ^ k) 1)) =
        what + min (maxValue - what) (2 ^ k - 1) ∧
      what + min (maxValue - what) (2 ^ k - 1) ≤ maxValue) ∧
    (∃ r, IsLeastMultipleGE (2 ^ k) what r ∧
      (r ≤ maxValue →
        align_safe w what (2 ^ k) maxValue = r ∧
        align_safe w what (2 ^ k) maxValue = align w what (2 ^ k)) ∧
      (maxValue < r →
        IsGreatestMultipleLE (2 ^ k) maxValue (align_safe w what (2 ^ k) maxValue) ∧
        align_safe w what (2 ^ k) maxValue < what)) ∧
    2 ^ k ∣ align_safe w what (2 ^ k) maxValue ∧
    align_safe w what (2 ^ k) maxValue ≤ maxValue := by
  have ht : 0 < 2 ^ k := Nat.two_pow_pos k
  obtain ⟨hadd, hs, heq⟩ := align_safe_eq w k what maxValue hk hle hmax
  obtain ⟨hup, huplt, -⟩ := roundUp_spec (2 ^ k) what ht
  obtain ⟨hdn, hdnlt, -⟩ := roundDown_spec (2 ^ k) maxValue ht
  obtain ⟨hsd, -, -⟩ := roundDown_spec (2 ^ k) (what + min (maxValue - what) (2 ^ k - 1)) ht
  obtain ⟨hxd, -, -⟩ := roundDown_spec (2 ^ k) (what + 2 ^ k - 1) ht
  refine ⟨⟨hadd, hs⟩, ⟨_, hup, ?_, ?_⟩, ?_, ?_⟩
  · intro hfit
    have hr : align_safe w what (2 ^ k) maxValue = (what + 2 ^ k - 1) / 2 ^ k * 2 ^ k := by
      rw [heq]
      by_cases hm : 2 ^ k - 1 ≤ maxValue - what
      · rw [Nat.min_eq_right hm]
        congr 2
        omega
      · have hmin : min (maxValue - what) (2 ^ k - 1) = maxValue - what :=
          Nat.min_eq_left (by omega)
        rw [hmin]
        have hsum : what + (maxValue - what) = maxValue := by omega
        rw [hsum]
        have hwr := hup.2.1
        obtain ⟨q, hq⟩ := hup.1
        rw [hq] at hfit huplt hwr ⊢
        have hdiv : maxValue / 2 ^ k = q := by
          apply Nat.div_eq_of_lt_le
          · rw [Nat.mul_comm]
            exact hfit
          · rw [Nat.succ_mul, Nat.mul_comm]
            omega
        rw [hdiv, Nat.mul_comm]
    refine ⟨hr, ?_⟩
    rw [hr]
    symm
    apply align_eq w k what hk
    by_contra hcon
    have h2w : 2 ^ w ≤ (what + 2 ^ k - 1) / 2 ^ k * 2 ^ k :=
      hxd.2.2 (2 ^ w) (two_pow_dvd_two_pow k w (le_of_lt hk)) (by omega)
    omega
  · intro hbig
    have hlt2 : maxValue < what + 2 ^ k := lt_trans hbig huplt
    have hmin : min (maxValue - what) (2 ^ k - 1) = maxValue - what :=
      Nat.min_eq_left (by omega)
    have hsum : what + (maxValue - what) = maxValue := by omega
    rw [heq, hmin, hsum]
    refine ⟨hdn, ?_⟩
    obtain ⟨q, hq⟩ := hup.1
    obtain ⟨c, hc⟩ := hdn.1
    rw [hq] at hbig huplt
    rw [hc]
    have hle2 := hdn.2.1
    rw [hc] at hle2
    have hcq : c < q := by
      by_contra h
      have : 2 ^ k * q ≤ 2 ^ k * c := Nat.mul_le_mul_left _ (by omega)
      omega
    have : 2 ^ k * (c + 1) ≤ 2 ^ k * q := Nat.mul_le_mul_left _ hcq
    rw [Nat.mul_succ] at this
    omega
  · rw [heq]
    exact hsd.1
  · rw [heq]
    exact le_trans hsd.2.1 hs

/-- C12 at a concrete input: on 8 bits, `align_safe(253, 4, 255) = 252`, the
rounded-up value 256 being above `maxValue`. -/
theorem align_safe_contract_witness :
    (2 < 8 ∧ 253 ≤ 255 ∧ 255 < 2 ^ 8) ∧ align_safe 8 253 (2 ^ 2) 255 = 252 ∧
    2 ^ 2 ∣ align_safe 8 253 (2 ^ 2) 255 :=
  ⟨by decide, by decide,
    (align_safe_contract 8 2 253 255 (by decide) (by decide) (by decide)).2.2.1⟩

/-- C13: for every `dividend` and every positive `divisor` of a `w`-bit
unsigned type such that `dividend + divisor - 1 < 2^w`, `divCeil(dividend,
divisor)` returns the ceiling of `dividend / divisor`, which is the least `q`
with `q * divisor >= dividend`; in particular `divCeil(0, divisor) = 0` and
`divCeil(dividend, 1) = dividend`. -/
theorem divCeil_ceiling (w dividend divisor : Nat) (hpos : 0 < divisor)
    (hdiv : divisor < 2 ^ w) (hno : dividend + divisor - 1 < 2 ^ w) :
    (∃ q, divCeil w dividend divisor = some q ∧
      q = ⌈(dividend : ℚ) / divisor⌉₊ ∧
      dividend ≤ q * divisor ∧
      ∀ q2, dividend ≤ q2 * divisor → q ≤ q2) ∧
    divCeil w 0 divisor = some 0 ∧
    divCeil w dividend 1 = some dividend := by
  have hne : divisor ≠ 0 := by omega
  have hval : ∀ a b : Nat, 0 < b → a + b - 1 < 2 ^ w →
      divCeil w a b = some ((a + b - 1) / b) := by
    intro a b hb hab
    unfold divCeil
    rw [if_neg (by omega), usub_uadd_one w a b (by omega) hab]
  obtain ⟨⟨⟨q, hq⟩, hge, hleast⟩, -, -⟩ := roundUp_spec divisor dividend hpos
  have hq2 : (dividend + divisor - 1) / divisor = q := by
    have h := hq
    rw [Nat.mul_comm divisor q] at h
    exact Nat.eq_of_mul_eq_mul_right hpos h
  rw [hq] at hge
  have hleast2 : ∀ q2, dividend ≤ q2 * divisor → q ≤ q2 := by
    intro q2 h2
    have := hleast (divisor * q2) (Dvd.intro _ rfl) (by rw [Nat.mul_comm]; exact h2)
    rw [hq] at this
    exact Nat.le_of_mul_le_mul_left this hpos
  have hdq : (0 : ℚ) < divisor := by exact_mod_cast hpos
  refine ⟨⟨q, ?_, ?_, ?_, hleast2⟩, ?_, ?_⟩
  · rw [hval dividend divisor hpos hno, hq2]
  · apply le_antisymm
    · apply hleast2
      have h1 := Nat.le_ceil ((dividend : ℚ) / divisor)
      rw [div_le_iff₀ hdq] at h1
      exact_mod_cast h1
    · rw [Nat.ceil_le, div_le_iff₀ hdq]
      have : dividend ≤ q * divisor := by rw [Nat.mul_comm]; exact hge
      exact_mod_cast this
  · rw [Nat.mul_comm]
    exact hge
  · rw [hval 0 divisor hpos (by omega)]
    congr 1
    apply Nat.div_eq_of_lt
    omega
  · have h1w : 1 < 2 ^ w := by omega
    rw [hval dividend 1 (by norm_num) (by omega)]
    simp

/-- C13 at a concrete input: on 8 bits, `divCeil(13, 4) = 4`. -/
theorem divCeil_ceiling_witness :
    (0 < 4 ∧ 4 < 2 ^ 8 ∧ 13 + 4 - 1 < 2 ^ 8) ∧ divCeil 8 13 4 = some 4 ∧
    divCeil 8 0 4 = some 0 :=
  ⟨by decide, by decide, (divCeil_ceiling 8 13 4 (by decide) (by decide) (by decide)).2.1⟩

/-- C14: for every `what` and every positive `to` of a `w`-bit unsigned type
(power of two or not), `alignDown(what, to)` returns the greatest multiple of
`to` that is `<= what`, which is `what - (what mod to)`, so
`0 <= what - alignDown(what, to) < to`; aligning the result down again gives
the same result; and when `to` is a power of two the result is
`what & ~(to - 1)`. -/
theorem alignDown_greatest_multiple (w what to_ : Nat) (hpos : 0 < to_)
    (hto : to_ < 2 ^ w) (hwhat : what < 2 ^ w) :
    ∃ r, alignDown w what to_ = some r ∧
      IsGreatestMultipleLE to_ what r ∧
      r = what - what % to_ ∧
      r ≤ what ∧ what - r < to_ ∧
      alignDown w r to_ = some r ∧
      ∀ k, to_ = 2 ^ k → r = what &&& unot w (usub w to_ 1) := by
  obtain ⟨hg, hlt, hmod⟩ := roundDown_spec to_ what hpos
  have hval : ∀ x, x < 2 ^ w → alignDown w x to_ = some (x / to_ * to_) := by
    intro x hx
    unfold alignDown
    rw [if_neg (by omega), umul_of_lt w _ _ (lt_of_le_of_lt (Nat.div_mul_le_self x to_) hx)]
  refine ⟨what / to_ * to_, hval what hwhat, hg, hmod, hg.2.1, by omega, ?_, ?_⟩
  · rw [hval _ (lt_of_le_of_lt hg.2.1 hwhat), Nat.mul_div_cancel _ hpos]
  · rintro k rfl
    have hk : k < w := (Nat.pow_lt_pow_iff_right (by norm_num)).1 hto
    rw [usub_pow_one w k hk, and_unot_pow w k what hwhat (le_of_lt hk)]

/-- C14 at a concrete input: on 8 bits, `alignDown(13, 4) = 12`. -/
theorem alignDown_greatest_multiple_witness :
    (0 < 4 ∧ 4 < 2 ^ 8 ∧ 13 < 2 ^ 8) ∧ alignDown 8 13 4 = some 12 ∧
    ∃ r, alignDown 8 13 4 = some r ∧ IsGreatestMultipleLE 4 13 r :=
  ⟨by decide, by decide,
    (alignDown_greatest_multiple 8 13 4 (by decide) (by decide) (by decide)).imp
      (fun _ h => ⟨h.1, h.2.1⟩)⟩

end dxvk
